import Mathlib

/-!
# Power-telemetry pipeline of the STM32 smart energy node

Shallow embedding of `src/firmware_template/main.c`:

* `compute_rms` (lines 32-37) and `process_window` (lines 40-56) are translated
  statement by statement;
* the global `telemetry` becomes an explicit state argument and result;
* `float` and `double` values are read as exact numbers of an ordered field `α`
  (instantiated with `ℝ` in the theorems), extended with the IEEE-754 special
  values that the program can produce through a division by zero: `Fp α`.
  Rounding and overflow are not modelled, so the casts `(float)` and `(double)`
  are the identity, and zeros carry no sign (all zero divisors of the program,
  `(double)n` and `vrms * irms`, are `+0`);
* a sample buffer `float *samples` is the map from an index to the sample stored
  there, and the loops read the indices `0 .. n-1`; the length `uint32_t n` is a
  natural number (the loop counter never exceeds `n`, so nothing wraps), and the
  samples themselves are finite;
* `sqrt` of `<math.h>` and the tick counter returned by `HAL_GetTick` are
  parameters;
* the namespace `IEEE` embeds the same two functions a second time, in the
  arithmetic of the C types (binary32 and binary64, round to nearest, ties to
  even), to evaluate the code where rounding, underflow or overflow decide.
-/

namespace SmartEnergyNode

/-- A C floating-point value: a finite number, an infinity with its sign
(`neg = true` for `-inf`), or NaN. -/
inductive Fp (α : Type) where
  | fin (x : α)
  | inf (neg : Bool)
  | nan
  deriving DecidableEq

variable {α : Type} [LinearOrderedField α]

/-- Unary minus. -/
def Fp.neg : Fp α → Fp α
  | .fin x => .fin (-x)
  | .inf s => .inf (!s)
  | .nan => .nan

/-- IEEE addition on exact values: `inf + (-inf)` is NaN. -/
def Fp.add : Fp α → Fp α → Fp α
  | .fin a, .fin b => .fin (a + b)
  | .fin _, .inf s => .inf s
  | .inf s, .fin _ => .inf s
  | .inf s, .inf t => if s = t then .inf s else .nan
  | _, _ => .nan

/-- IEEE subtraction. -/
def Fp.sub (a b : Fp α) : Fp α := Fp.add a (Fp.neg b)

/-- IEEE multiplication on exact values: `0 * inf` is NaN. -/
def Fp.mul : Fp α → Fp α → Fp α
  | .fin a, .fin b => .fin (a * b)
  | .fin a, .inf s => if a = 0 then .nan else .inf (xor (decide (a < 0)) s)
  | .inf s, .fin b => if b = 0 then .nan else .inf (xor s (decide (b < 0)))
  | .inf s, .inf t => .inf (xor s t)
  | _, _ => .nan

/-- IEEE division on exact values: `0 / 0` is NaN, `x / 0` is an infinity with
the sign of `x` (the divisor being `+0`). -/
def Fp.div : Fp α → Fp α → Fp α
  | .fin a, .fin b =>
      if b = 0 then (if a = 0 then .nan else .inf (decide (a < 0))) else .fin (a / b)
  | .fin _, .inf _ => .fin 0
  | .inf s, .fin b => .inf (xor s (decide (b < 0)))
  | _, _ => .nan

/-- The function `sqrt` of `<math.h>`, given the square root `rsqrt` of the
non-negative numbers: NaN on a negative argument. -/
def Fp.sqrt (rsqrt : α → α) : Fp α → Fp α
  | .fin x => if x < 0 then .nan else .fin (rsqrt x)
  | .inf false => .inf false
  | _ => .nan

/-- The function `fabs` of `<math.h>`. -/
def Fp.fabs : Fp α → Fp α
  | .fin x => .fin |x|
  | .inf _ => .inf false
  | .nan => .nan

/-- The C comparison `a > b`: false as soon as one side is NaN. -/
def Fp.gt : Fp α → Fp α → Bool
  | .fin a, .fin b => decide (b < a)
  | .fin _, .inf s => s
  | .inf s, .fin _ => !s
  | .inf s, .inf t => !s && t
  | _, _ => false

/-- The struct `telemetry_t` (main.c lines 18-26). -/
structure telemetry_t (α : Type) where
  voltage : Fp α
  current : Fp α
  active_power : Fp α
  reactive_power : Fp α
  pf : Fp α
  frequency : Fp α
  timestamp : Nat

/-- The accumulation loop shared by lines 34 and 45:
`for (i = 0; i < n; i++) acc += (double)a[i] * (double)b[i];` started at `0.0`. -/
def accumulate (a b : Nat → α) (n : Nat) : Fp α :=
  (List.range n).foldl
    (fun acc i => Fp.add acc (Fp.mul (Fp.fin (a i)) (Fp.fin (b i)))) (Fp.fin 0)

/-- The function `compute_rms` (main.c lines 32-37). -/
def compute_rms (sqrt : α → α) (samples : Nat → α) (n : Nat) : Fp α :=
  let acc := accumulate samples samples n
  let acc := Fp.div acc (Fp.fin (n : α))
  Fp.sqrt sqrt acc

/-- The local `pavg` of `process_window` (main.c lines 44-46). -/
def process_window_pavg (vbuf ibuf : Nat → α) (n : Nat) : Fp α :=
  let pacc := accumulate vbuf ibuf n
  Fp.div pacc (Fp.fin (n : α))

/-- The local `s` of `process_window` (main.c line 50), the apparent power. -/
def process_window_s (sqrt : α → α) (vbuf ibuf : Nat → α) (n : Nat) : Fp α :=
  Fp.mul (compute_rms sqrt vbuf n) (compute_rms sqrt ibuf n)

/-- The local `q` of `process_window` (main.c lines 51-52). -/
def process_window_q (sqrt : α → α) (s pavg : Fp α) : Fp α :=
  if Fp.gt s (Fp.fabs pavg) then
    Fp.sqrt sqrt (Fp.sub (Fp.mul s s) (Fp.mul pavg pavg))
  else Fp.fin 0

/-- The function `process_window` (main.c lines 40-56): `telemetry` is the
global before the call, the result is the global after it, and `HAL_GetTick`
is the value the tick counter returns. -/
def process_window (sqrt : α → α) (HAL_GetTick : Nat) (vbuf ibuf : Nat → α) (n : Nat)
    (telemetry : telemetry_t α) : telemetry_t α :=
  let vrms := compute_rms sqrt vbuf n
  let irms := compute_rms sqrt ibuf n
  let pavg := process_window_pavg vbuf ibuf n
  let telemetry := { telemetry with voltage := vrms }
  let telemetry := { telemetry with current := irms }
  let telemetry := { telemetry with active_power := pavg }
  let s := Fp.mul vrms irms
  let q := process_window_q sqrt s pavg
  let telemetry := { telemetry with reactive_power := q }
  let telemetry := { telemetry with pf := Fp.div pavg s }
  { telemetry with timestamp := HAL_GetTick % 2 ^ 32 / 1000 }

/-- The value of the global `telemetry` set up by `main` (lines 76-78): a
zero-initialised global with `voltage = 230.0f` and `current = 0.0f`. -/
def telemetry_init : telemetry_t α :=
  { voltage := Fp.fin 230, current := Fp.fin 0, active_power := Fp.fin 0,
    reactive_power := Fp.fin 0, pf := Fp.fin 0, frequency := Fp.fin 0, timestamp := 0 }

/-- The clamped formula of the design for the reactive power,
`q = sqrt(max(s^2 - p^2, 0))`, on finite `s` and `p`. -/
def reactive_power_clamped (sqrt : α → α) (s p : α) : α :=
  sqrt (max (s ^ 2 - p ^ 2) 0)

/-! ## The OTA update design

`main.c` holds no OTA code, only the notes of lines 4-8 and 58-64; the two
components below follow sections 3, 4.4 and 4.5 of the specification. -/

/-- Modelled from the spec: the errors of `ImageVerifier.verify_and_prepare`
(section 4.4), a function `main.c` only describes in the notes of lines 58-64. -/
inductive VerificationError where
  | SignatureInvalidError
  | DecryptionFailedError
  deriving DecidableEq

/-- Modelled from the spec: the two operations of the trust anchor that an
instrumented anchor records in call order (sections 6 and 8); `main.c` has no
trust anchor. -/
inductive AnchorCall where
  | verify_signature
  | decrypt
  deriving DecidableEq

/-- Modelled from the spec: the trust anchor / key storage of section 6, absent
from `main.c`: the signature check over the staged image and the decryption with
the device-bound key, which fails on a tag mismatch. -/
structure TrustAnchor (Image : Type) where
  signature_valid : Image → Bool
  decrypt_image : Image → Option Image

/-- Modelled from the spec: the instrumented signature verification, absent from
`main.c`; it appends its call to the record. -/
def TrustAnchor.verify_signature {Image : Type} (anchor : TrustAnchor Image)
    (staged : Image) (calls : List AnchorCall) : Bool × List AnchorCall :=
  (anchor.signature_valid staged, calls ++ [AnchorCall.verify_signature])

/-- Modelled from the spec: the instrumented decryption, absent from `main.c`; it
appends its call to the record. -/
def TrustAnchor.decrypt {Image : Type} (anchor : TrustAnchor Image)
    (staged : Image) (calls : List AnchorCall) : Option Image × List AnchorCall :=
  (anchor.decrypt_image staged, calls ++ [AnchorCall.decrypt])

/-- Modelled from the spec: `ImageVerifier.verify_and_prepare` (section 4.4),
absent from `main.c`. Stage 1 verifies the signature, a mismatch failing with
`SignatureInvalidError`; stage 2, only after authenticity passes, decrypts, a
failure giving `DecryptionFailedError`; the output is the verified image. The
second component of the result is the record of the anchor calls made. -/
def verify_and_prepare {Image : Type} (anchor : TrustAnchor Image) (staged : Image)
    (calls : List AnchorCall) : Except VerificationError Image × List AnchorCall :=
  let authentic := anchor.verify_signature staged calls
  if authentic.1 then
    let plain := anchor.decrypt staged authentic.2
    match plain.1 with
    | some image => (Except.ok image, plain.2)
    | none => (Except.error VerificationError.DecryptionFailedError, plain.2)
  else (Except.error VerificationError.SignatureInvalidError, authentic.2)

/-- Modelled from the spec: the persisted `BootRecord` of section 3, absent from
`main.c`. -/
structure BootRecord where
  active_slot_id : Nat
  boot_attempt_count : Nat
  last_known_good_slot_id : Nat
  deriving DecidableEq

/-- Modelled from the spec: the states of `BootDecisionManager` (section 4.5),
absent from `main.c`. -/
inductive BootState where
  | Running (active_slot : Nat)
  | PendingVerification (staging_slot : Nat)
  | PendingReboot (new_slot : Nat)
  | RollingBack
  deriving DecidableEq

/-- Modelled from the spec: what drives the transitions of section 4.5, absent
from `main.c`: an OTA session finalized into a staging slot, the outcome of
`ImageVerifier` on the staged image, the outcome of a boot and self-test, and the
reboot that ends a rollback. -/
inductive BootEvent where
  | ota_finalized (staging_slot : Nat)
  | verification (succeeded : Bool)
  | self_test (succeeded : Bool)
  | reboot
  deriving DecidableEq

/-- Modelled from the spec: `BootDecisionManager` (section 4.5), absent from
`main.c`: its state, the `BootRecord` it owns, and for every slot whether the
image it holds has passed `ImageVerifier`. -/
structure BootManager where
  state : BootState
  record : BootRecord
  verified : Nat → Bool

/-- Modelled from the spec: the rewrite of `BootRecord` on a rollback (section
4.5), absent from `main.c`: the record points back at the last known good slot. -/
def BootManager.roll_back (m : BootManager) : BootManager :=
  { m with
    state := BootState.RollingBack
    record := { m.record with active_slot_id := m.record.last_known_good_slot_id } }

/-- Modelled from the spec: the transitions of `BootDecisionManager` (section
4.5), absent from `main.c`. An event that no transition of the current state
takes leaves the manager as it is.

* `Running → PendingVerification`: the OTA session is finalized; the staging
  slot holds a new image, not yet verified. The staging slot is neither the
  active slot nor the last known good one (slot roles of section 3, "the active
  image is never touched").
* `PendingVerification → PendingReboot`: verification succeeded, the record gets
  `active_slot_id = new_slot` and `boot_attempt_count = 0`.
* `PendingVerification → Running`: verification failed, the staging region is
  invalidated and the record is untouched.
* `PendingReboot → Running(new_slot)`: boot and self-test succeeded, the attempt
  count is reset and `last_known_good_slot_id` updated.
* a failed self-test counts a boot attempt; once the count exceeds `ceiling`, and
  on any failed self-test of a running image, the manager rolls back.
* `RollingBack → Running(last_known_good_slot_id)` on the reboot. -/
def BootManager.step (ceiling : Nat) (m : BootManager) : BootEvent → BootManager
  | BootEvent.ota_finalized staging_slot =>
    match m.state with
    | BootState.Running _ =>
      if staging_slot = m.record.active_slot_id
          ∨ staging_slot = m.record.last_known_good_slot_id then m
      else
        { m with
          state := BootState.PendingVerification staging_slot
          verified := Function.update m.verified staging_slot false }
    | _ => m
  | BootEvent.verification succeeded =>
    match m.state with
    | BootState.PendingVerification staging_slot =>
      if succeeded then
        { state := BootState.PendingReboot staging_slot
          record := { m.record with active_slot_id := staging_slot, boot_attempt_count := 0 }
          verified := Function.update m.verified staging_slot true }
      else
        { m with
          state := BootState.Running m.record.active_slot_id
          verified := Function.update m.verified staging_slot false }
    | _ => m
  | BootEvent.self_test succeeded =>
    match m.state with
    | BootState.PendingReboot new_slot =>
      if succeeded then
        { m with
          state := BootState.Running new_slot
          record := { m.record with
            boot_attempt_count := 0, last_known_good_slot_id := new_slot } }
      else if m.record.boot_attempt_count + 1 > ceiling then m.roll_back
      else
        { m with
          record := { m.record with boot_attempt_count := m.record.boot_attempt_count + 1 } }
    | BootState.Running _ => if succeeded then m else m.roll_back
    | _ => m
  | BootEvent.reboot =>
    match m.state with
    | BootState.RollingBack =>
      { m with state := BootState.Running m.record.last_known_good_slot_id }
    | _ => m

/-- Modelled from the spec: the initial state at cold start (section 4.5), absent
from `main.c`: the persisted record is read, and a boot attempt count above the
ceiling forces a rollback before `Running` is entered. -/
def BootManager.cold_start (ceiling : Nat) (record : BootRecord) (verified : Nat → Bool) :
    BootManager :=
  if record.boot_attempt_count > ceiling then
    BootManager.roll_back
      { state := BootState.Running record.active_slot_id, record := record,
        verified := verified }
  else
    { state := BootState.Running record.active_slot_id, record := record,
      verified := verified }

/-- Modelled from the spec: a run of `BootDecisionManager`, absent from `main.c`:
the events are taken one after the other. -/
def BootManager.run (ceiling : Nat) (m : BootManager) (events : List BootEvent) :
    BootManager :=
  events.foldl (BootManager.step ceiling) m

/-- The invariant carried along a run: the active and the last known good slot
hold verified images, a slot under verification is neither of them, and a slot
pending reboot is the active one. -/
def BootManager.consistent (m : BootManager) : Prop :=
  m.verified m.record.active_slot_id = true ∧
    m.verified m.record.last_known_good_slot_id = true ∧
    match m.state with
    | BootState.PendingVerification staging_slot =>
      staging_slot ≠ m.record.active_slot_id
        ∧ staging_slot ≠ m.record.last_known_good_slot_id
    | BootState.PendingReboot new_slot => new_slot = m.record.active_slot_id
    | _ => True

/-! ## The arithmetic of the target: IEEE-754 binary32 and binary64

The definitions above read `float` and `double` as exact numbers. The namespace
`IEEE` embeds the same two functions with the arithmetic of the C types: every
`double` operation is the exact operation followed by rounding to binary64, every
cast `(float)` is rounding to binary32, both to nearest with ties to even, with
gradual underflow and overflow to an infinity, and `sqrt` is correctly rounded.
A buffer holds binary32 values, which may be infinite or NaN. Zeros carry no
sign and products are not fused with sums. -/

namespace IEEE

/-- The power of two `2^k` for an integer `k`. -/
def pow2 (k : Int) : ℚ :=
  if 0 ≤ k then ((2 ^ k.toNat : Nat) : ℚ) else 1 / ((2 ^ (-k).toNat : Nat) : ℚ)

/-- The binary exponent `⌊log2 |x|⌋` of a number with `2^-8192 ≤ |x| < 2^8192`,
a range that holds every exact result of one operation on binary64 numbers: the
largest `e` with `2^e ≤ |x|`, found bit by bit from `-8192` upwards. -/
def ilog2 (x : ℚ) : Int :=
  [8192, 4096, 2048, 1024, 512, 256, 128, 64, 32, 16, 8, 4, 2, 1].foldl
    (fun e b => if pow2 (e + b) ≤ |x| then e + b else e) (-8192)

/-- The integer nearest to `x`, a tie going to the even one. -/
def round_half_even (x : ℚ) : Int :=
  let f : Int := ⌊x⌋
  if x - f < 1 / 2 then f
  else if 1 / 2 < x - f then f + 1
  else if f % 2 = 0 then f else f + 1

/-- Rounding to the binary format of precision `p` bits and exponent range
`emin .. emax`: to nearest, ties to even, subnormal below `2^emin`, an infinity
once the rounded magnitude reaches `2^(emax+1)`. -/
def round_format (p : Nat) (emin emax : Int) : Fp ℚ → Fp ℚ
  | Fp.fin x =>
    if x = 0 then Fp.fin 0
    else
      let e := max (ilog2 x) emin
      let ulp := pow2 (e - ((p : Int) - 1))
      let y := (round_half_even (x / ulp) : ℚ) * ulp
      if pow2 (emax + 1) ≤ |y| then Fp.inf (decide (x < 0)) else Fp.fin y
  | v => v

/-- The cast `(float)`: rounding to binary32. -/
def to_float : Fp ℚ → Fp ℚ := round_format 24 (-126) 127

/-- The result of a `double` operation: rounding to binary64. -/
def to_double : Fp ℚ → Fp ℚ := round_format 53 (-1022) 1023

/-- The integer square root `⌊sqrt n⌋` of a number `n < 2^128`: the largest `r`
with `r * r ≤ n`, found bit by bit from bit 63 down to bit 0. -/
def isqrt (n : Nat) : Nat :=
  (List.range 64).reverse.foldl
    (fun r b => if (r + 2 ^ b) * (r + 2 ^ b) ≤ n then r + 2 ^ b else r) 0

/-- The function `sqrt` of `<math.h>` on a positive `double`: the binary64 number
nearest to the square root. -/
def sqrt_double (x : ℚ) : ℚ :=
  if x ≤ 0 then 0
  else
    let e : Int := ⌊((ilog2 x : Int) : ℚ) / 2⌋
    let ulp := pow2 (e - 52)
    let r : Nat := isqrt (⌊x / (ulp * ulp)⌋).toNat
    let m : Nat :=
      if 4 * (x / (ulp * ulp)) < ((2 * r + 1 : Nat) : ℚ) ^ 2 then r
      else if ((2 * r + 1 : Nat) : ℚ) ^ 2 < 4 * (x / (ulp * ulp)) then r + 1
      else if r % 2 = 0 then r else r + 1
    (m : ℚ) * ulp

/-- The `double` sum `a + b`. -/
def add (a b : Fp ℚ) : Fp ℚ := to_double (Fp.add a b)

/-- The `double` difference `a - b`. -/
def sub (a b : Fp ℚ) : Fp ℚ := to_double (Fp.sub a b)

/-- The `double` product `a * b`. -/
def mul (a b : Fp ℚ) : Fp ℚ := to_double (Fp.mul a b)

/-- The `double` quotient `a / b`. -/
def div (a b : Fp ℚ) : Fp ℚ := to_double (Fp.div a b)

/-- The call `sqrt(a)` on a `double`. -/
def sqrt (a : Fp ℚ) : Fp ℚ := Fp.sqrt sqrt_double a

/-- The accumulation loop of lines 34 and 45 in `double` arithmetic:
`for (i = 0; i < n; i++) acc += (double)a[i] * (double)b[i];` started at `0.0`. -/
def accumulate (a b : Nat → Fp ℚ) (n : Nat) : Fp ℚ :=
  (List.range n).foldl (fun acc i => add acc (mul (a i) (b i))) (Fp.fin 0)

/-- The function `compute_rms` (main.c lines 32-37) in the arithmetic of the
C types. -/
def compute_rms (samples : Nat → Fp ℚ) (n : Nat) : Fp ℚ :=
  let acc := accumulate samples samples n
  let acc := div acc (Fp.fin (n : ℚ))
  to_float (sqrt acc)

/-- The function `process_window` (main.c lines 40-56) in the arithmetic of the
C types. -/
def process_window (HAL_GetTick : Nat) (vbuf ibuf : Nat → Fp ℚ) (n : Nat)
    (telemetry : telemetry_t ℚ) : telemetry_t ℚ :=
  let vrms := compute_rms vbuf n
  let irms := compute_rms ibuf n
  let pacc := accumulate vbuf ibuf n
  let pavg := div pacc (Fp.fin (n : ℚ))
  let telemetry := { telemetry with voltage := vrms }
  let telemetry := { telemetry with current := irms }
  let telemetry := { telemetry with active_power := to_float pavg }
  let s := mul vrms irms
  let q := if Fp.gt s (Fp.fabs pavg) then sqrt (sub (mul s s) (mul pavg pavg)) else Fp.fin 0
  let telemetry := { telemetry with reactive_power := to_float q }
  let telemetry := { telemetry with pf := to_float (div pavg s) }
  { telemetry with timestamp := HAL_GetTick % 2 ^ 32 / 1000 }

/-- The window whose first sample is `x` and whose other samples are `0`. -/
def pulse (x : ℚ) (i : Nat) : Fp ℚ := if i = 0 then Fp.fin x else Fp.fin 0

end IEEE

/-! ## The loops compute finite sums -/

theorem accumulate_eq (a b : Nat → α) (n : Nat) :
    accumulate a b n = Fp.fin (∑ i in Finset.range n, a i * b i) := by
  unfold accumulate
  induction n with
  | zero => simp
  | succ k ih =>
    rw [List.range_succ, List.foldl_append, ih]
    simp [Fp.add, Fp.mul, Finset.sum_range_succ]

theorem div_count_fin (a : α) (n : Nat) (hn : 1 ≤ n) :
    Fp.div (Fp.fin a) (Fp.fin (n : α)) = Fp.fin (a / n) := by
  have h : (n : α) ≠ 0 := Nat.cast_ne_zero.mpr (by omega)
  simp [Fp.div, h]

theorem mean_sq_nonneg (x : Nat → ℝ) (n : Nat) :
    0 ≤ (∑ i in Finset.range n, x i * x i) / n :=
  div_nonneg (Finset.sum_nonneg fun i _ => mul_self_nonneg (x i)) (Nat.cast_nonneg n)

/-- On a non-empty window `compute_rms` is the finite number `sqrt(mean(x_i * x_i))`. -/
theorem compute_rms_fin (x : Nat → ℝ) (n : Nat) (hn : 1 ≤ n) :
    compute_rms Real.sqrt x n
      = Fp.fin (Real.sqrt ((∑ i in Finset.range n, x i * x i) / n)) := by
  simp only [compute_rms, accumulate_eq, div_count_fin _ n hn, Fp.sqrt]
  rw [if_neg (not_lt.mpr (mean_sq_nonneg x n))]

/-- On a non-empty window `pavg` is the finite number `mean(v_i * i_i)`. -/
theorem pavg_fin (v c : Nat → α) (n : Nat) (hn : 1 ≤ n) :
    process_window_pavg v c n = Fp.fin ((∑ i in Finset.range n, v i * c i) / n) := by
  simp only [process_window_pavg, accumulate_eq, div_count_fin _ n hn]

/-! ## Claims about `compute_rms` -/

/-- C1: for every sample array `x` of length `n ≥ 1`, `compute_rms x n` is
`sqrt((x_0^2 + ... + x_{n-1}^2) / n)`. -/
theorem compute_rms_eq_sqrt_mean_sq (x : Nat → ℝ) (n : Nat) (hn : 1 ≤ n) :
    compute_rms Real.sqrt x n
      = Fp.fin (Real.sqrt ((∑ i in Finset.range n, x i ^ 2) / n)) := by
  rw [compute_rms_fin x n hn]
  simp only [pow_two]

theorem compute_rms_eq_sqrt_mean_sq_witness :
    1 ≤ 2 ∧ compute_rms Real.sqrt (fun i => if i = 0 then 3 else 4) 2
      = Fp.fin (Real.sqrt ((∑ i in Finset.range 2,
          (fun i => if i = 0 then (3 : ℝ) else 4) i ^ 2) / (2 : ℕ))) :=
  ⟨by decide, compute_rms_eq_sqrt_mean_sq _ 2 (by decide)⟩

/-- C2, as stated, fails on a negative constant: the window of one sample `-1`
has RMS `1`, not `-1`. -/
theorem compute_rms_const_neg_counterexample :
    compute_rms Real.sqrt (fun _ => (-1 : ℝ)) 1 = Fp.fin 1 ∧
      compute_rms Real.sqrt (fun _ => (-1 : ℝ)) 1 ≠ Fp.fin (-1) := by
  have h : compute_rms Real.sqrt (fun _ => (-1 : ℝ)) 1 = Fp.fin 1 := by
    rw [compute_rms_fin _ 1 (le_refl 1)]
    simp
  refine ⟨h, ?_⟩
  rw [h]
  intro hc
  injection hc with hc
  norm_num at hc

/-- C2 (amended): for every constant `A` and every `n ≥ 1`, `compute_rms` of the
window whose `n` samples all equal `A` returns `|A|`; it returns `A` when
`A ≥ 0`. -/
theorem compute_rms_const (A : ℝ) (n : Nat) (hn : 1 ≤ n) :
    compute_rms Real.sqrt (fun _ => A) n = Fp.fin |A| ∧
      (0 ≤ A → compute_rms Real.sqrt (fun _ => A) n = Fp.fin A) := by
  have hn0 : (n : ℝ) ≠ 0 := Nat.cast_ne_zero.mpr (by omega)
  have h : compute_rms Real.sqrt (fun _ => A) n = Fp.fin |A| := by
    rw [compute_rms_fin _ n hn]
    simp only [Finset.sum_const, Finset.card_range, nsmul_eq_mul]
    rw [mul_div_cancel_left₀ _ hn0, Real.sqrt_mul_self_eq_abs]
  exact ⟨h, fun hA => by rw [h, abs_of_nonneg hA]⟩

theorem compute_rms_const_witness :
    1 ≤ 4 ∧ compute_rms Real.sqrt (fun _ => (-2 : ℝ)) 4 = Fp.fin |(-2 : ℝ)| ∧
      (0 ≤ (-2 : ℝ) → compute_rms Real.sqrt (fun _ => (-2 : ℝ)) 4 = Fp.fin (-2)) :=
  ⟨by decide, compute_rms_const (-2) 4 (by decide)⟩

/-! ## A sinusoid sampled over whole periods -/

theorem root_of_unity_ne_one (N : ℕ) (k : ℤ) (hN : 1 ≤ N) (hk : ¬ (N : ℤ) ∣ 2 * k) :
    Complex.exp (2 * Real.pi * Complex.I * (2 * k / N)) ≠ 1 := by
  intro h
  rw [Complex.exp_eq_one_iff] at h
  obtain ⟨m, hm⟩ := h
  have hN0 : (N : ℂ) ≠ 0 := Nat.cast_ne_zero.mpr (by omega)
  have hpi : (2 * Real.pi * Complex.I : ℂ) ≠ 0 := Complex.two_pi_I_ne_zero
  have h2 : (2 * k / N : ℂ) = m := by
    have : (2 * Real.pi * Complex.I : ℂ) * (2 * k / N) = (2 * Real.pi * Complex.I) * m := by
      rw [hm]; ring
    exact mul_left_cancel₀ hpi this
  have h3 : ((2 * k : ℤ) : ℂ) = ((m * N : ℤ) : ℂ) := by
    push_cast
    field_simp at h2
    exact h2
  have h4 : 2 * k = m * N := by exact_mod_cast h3
  exact hk ⟨m, by rw [h4]; ring⟩

theorem root_of_unity_pow (N : ℕ) (k : ℤ) (hN : 1 ≤ N) :
    Complex.exp (2 * Real.pi * Complex.I * (2 * k / N)) ^ N = 1 := by
  have hN0 : (N : ℂ) ≠ 0 := Nat.cast_ne_zero.mpr (by omega)
  rw [← Complex.exp_nat_mul]
  have : (N : ℂ) * (2 * Real.pi * Complex.I * (2 * k / N)) = ((2 * k : ℤ) : ℂ) * (2 * Real.pi * Complex.I) := by
    push_cast
    field_simp
    ring
  rw [this]
  exact Complex.exp_int_mul_two_pi_mul_I (2 * k)

theorem sum_cos_double_eq_zero (N : ℕ) (k : ℤ) (φ : ℝ) (hN : 1 ≤ N) (hk : ¬ (N : ℤ) ∣ 2 * k) :
    ∑ i in Finset.range N, Real.cos (2 * (2 * Real.pi * k * i / N + φ)) = 0 := by
  have hN0 : (N : ℂ) ≠ 0 := Nat.cast_ne_zero.mpr (by omega)
  have hgeom : ∑ i in Finset.range N, Complex.exp (2 * Real.pi * Complex.I * (2 * k / N)) ^ i = 0 := by
    rw [geom_sum_eq (root_of_unity_ne_one N k hN hk), root_of_unity_pow N k hN]
    simp
  have hterm : ∀ i : ℕ, Real.cos (2 * (2 * Real.pi * k * i / N + φ))
      = (Complex.exp (2 * φ * Complex.I) * Complex.exp (2 * Real.pi * Complex.I * (2 * k / N)) ^ i).re := by
    intro i
    rw [← Complex.exp_nat_mul, ← Complex.exp_add]
    have : (2 * φ * Complex.I + (i : ℂ) * (2 * Real.pi * Complex.I * (2 * k / N)) : ℂ)
        = ((2 * (2 * Real.pi * k * i / N + φ) : ℝ) : ℂ) * Complex.I := by
      push_cast
      field_simp
      ring
    rw [this, Complex.exp_ofReal_mul_I_re]
  calc ∑ i in Finset.range N, Real.cos (2 * (2 * Real.pi * k * i / N + φ))
      = ∑ i in Finset.range N, (Complex.exp (2 * φ * Complex.I) * Complex.exp (2 * Real.pi * Complex.I * (2 * k / N)) ^ i).re :=
        Finset.sum_congr rfl fun i _ => hterm i
    _ = (∑ i in Finset.range N, Complex.exp (2 * φ * Complex.I) * Complex.exp (2 * Real.pi * Complex.I * (2 * k / N)) ^ i).re := by
        rw [Complex.re_sum]
    _ = 0 := by rw [← Finset.mul_sum, hgeom]; simp

theorem sum_sin_sq (N : ℕ) (k : ℤ) (φ : ℝ) (hN : 1 ≤ N) (hk : ¬ (N : ℤ) ∣ 2 * k) :
    ∑ i in Finset.range N, Real.sin (2 * Real.pi * k * i / N + φ) ^ 2 = N / 2 := by
  have h : ∀ i : ℕ, Real.sin (2 * Real.pi * k * i / N + φ) ^ 2
      = 1 / 2 - Real.cos (2 * (2 * Real.pi * k * i / N + φ)) / 2 := fun i =>
    Real.sin_sq_eq_half_sub _
  simp only [h, Finset.sum_sub_distrib, ← Finset.sum_div, sum_cos_double_eq_zero N k φ hN hk]
  simp

/-- C3: for every amplitude `A ≥ 0`, phase `φ`, window length `N ≥ 1` and whole
number of periods `k` with `2k` not a multiple of `N`, `compute_rms` of the
window `x_i = A * sin(2π k i / N + φ)`, `i = 0 .. N-1`, returns `A / sqrt 2`. -/
theorem compute_rms_sinusoid (A φ : ℝ) (N : ℕ) (k : ℤ) (hA : 0 ≤ A) (hN : 1 ≤ N)
    (hk : ¬ (N : ℤ) ∣ 2 * k) :
    compute_rms Real.sqrt (fun i => A * Real.sin (2 * Real.pi * k * i / N + φ)) N
      = Fp.fin (A / Real.sqrt 2) := by
  have hN0 : (N : ℝ) ≠ 0 := Nat.cast_ne_zero.mpr (by omega)
  rw [compute_rms_fin _ N hN]
  have hsum : ∑ i in Finset.range N, A * Real.sin (2 * Real.pi * k * i / N + φ)
        * (A * Real.sin (2 * Real.pi * k * i / N + φ)) = A ^ 2 * (N / 2) := by
    rw [← sum_sin_sq N k φ hN hk, Finset.mul_sum]
    exact Finset.sum_congr rfl fun i _ => by ring
  rw [hsum]
  have hmean : A ^ 2 * ((N : ℝ) / 2) / N = A ^ 2 / 2 := by
    field_simp
    ring
  rw [hmean, Real.sqrt_div (sq_nonneg A), Real.sqrt_sq hA]

theorem compute_rms_sinusoid_witness :
    (0 : ℝ) ≤ 5 ∧ 1 ≤ 3 ∧ ¬ ((3 : ℕ) : ℤ) ∣ 2 * 1 ∧
      compute_rms Real.sqrt
        (fun i => 5 * Real.sin (2 * Real.pi * (1 : ℤ) * i / (3 : ℕ) + 0)) 3
        = Fp.fin (5 / Real.sqrt 2) :=
  ⟨by norm_num, by decide, by decide,
    compute_rms_sinusoid 5 0 3 1 (by norm_num) (by decide) (by decide)⟩

/-! ## Facts about the locals of `process_window` -/

/-- On a non-empty window `s` is the finite product of the two RMS values. -/
theorem s_fin (v c : Nat → ℝ) (n : Nat) (hn : 1 ≤ n) :
    process_window_s Real.sqrt v c n
      = Fp.fin (Real.sqrt ((∑ i in Finset.range n, v i * v i) / n)
          * Real.sqrt ((∑ i in Finset.range n, c i * c i) / n)) := by
  simp only [process_window_s, compute_rms_fin _ n hn, Fp.mul]

/-- Cauchy-Schwarz on the window: `|mean(v_i * c_i)| ≤ vrms * crms`. -/
theorem abs_mean_mul_le (v c : Nat → ℝ) (n : Nat) :
    |(∑ i in Finset.range n, v i * c i) / n|
      ≤ Real.sqrt ((∑ i in Finset.range n, v i * v i) / n)
          * Real.sqrt ((∑ i in Finset.range n, c i * c i) / n) := by
  have hcs := Finset.sum_mul_sq_le_sq_mul_sq (Finset.range n) v c
  simp only [pow_two] at hcs
  rw [← Real.sqrt_mul (mean_sq_nonneg v n)]
  apply Real.abs_le_sqrt
  rw [div_pow, div_mul_div_comm, pow_two, pow_two]
  exact div_le_div_of_nonneg_right hcs (mul_nonneg (Nat.cast_nonneg n) (Nat.cast_nonneg n))

/-- The branch of lines 51-52 on finite values with `s ≥ 0` is the clamped formula. -/
theorem process_window_q_fin (s p : ℝ) (hs : 0 ≤ s) :
    process_window_q Real.sqrt (Fp.fin s) (Fp.fin p)
      = Fp.fin (reactive_power_clamped Real.sqrt s p) := by
  unfold process_window_q reactive_power_clamped
  by_cases h : |p| < s
  · have hsq : p ^ 2 < s ^ 2 := by
      rw [← sq_abs p]
      exact pow_lt_pow_left₀ h (abs_nonneg p) two_ne_zero
    have hnn : ¬ (s * s + -(p * p) < 0) := by nlinarith
    simp only [Fp.gt, Fp.fabs, h, decide_True, if_true, Fp.sub, Fp.mul, Fp.neg, Fp.add,
      Fp.sqrt, hnn, if_false]
    rw [max_eq_left (by linarith)]
    congr 2
    ring
  · have hle : s ^ 2 ≤ p ^ 2 := by
      rw [← sq_abs p]
      exact pow_le_pow_left₀ hs (not_lt.mp h) 2
    simp only [Fp.gt, Fp.fabs, h, decide_False, Bool.false_eq_true, if_false]
    rw [max_eq_right (by linarith), Real.sqrt_zero]

/-- The fields written by `process_window`, one by one. -/
theorem process_window_fields (sqrt : α → α) (tick : Nat) (v c : Nat → α) (n : Nat)
    (t : telemetry_t α) :
    process_window sqrt tick v c n t =
      { voltage := compute_rms sqrt v n
        current := compute_rms sqrt c n
        active_power := process_window_pavg v c n
        reactive_power :=
          process_window_q sqrt (process_window_s sqrt v c n) (process_window_pavg v c n)
        pf := Fp.div (process_window_pavg v c n) (process_window_s sqrt v c n)
        frequency := t.frequency
        timestamp := tick % 2 ^ 32 / 1000 } := rfl

/-! ## Claims about `process_window` -/

/-- C4, as stated, fails: on the empty window `compute_rms` raises no error but
returns NaN, and `process_window` publishes a snapshot whose reactive power is `0`
and whose timestamp is updated. -/
theorem empty_window_counterexample :
    compute_rms Real.sqrt (fun _ => (0 : ℝ)) 0 = Fp.nan ∧
      process_window Real.sqrt 5000 (fun _ => (0 : ℝ)) (fun _ => 0) 0 telemetry_init
        = { voltage := Fp.nan, current := Fp.nan, active_power := Fp.nan,
            reactive_power := Fp.fin 0, pf := Fp.nan, frequency := Fp.fin 0,
            timestamp := 5 } := by
  have h : compute_rms Real.sqrt (fun _ => (0 : ℝ)) 0 = Fp.nan := by
    simp [compute_rms, accumulate_eq, Fp.div, Fp.sqrt]
  have hp : process_window_pavg (fun _ => (0 : ℝ)) (fun _ => 0) 0 = Fp.nan := by
    simp [process_window_pavg, accumulate_eq, Fp.div]
  refine ⟨h, ?_⟩
  rw [process_window_fields]
  simp only [process_window_s, h, hp, Fp.mul, Fp.div, process_window_q, Fp.gt, Fp.fabs]
  simp [telemetry_init]

/-- C4 (amended): for an empty window (`n = 0`) `compute_rms` has no failure
result; the value it returns is NaN (from `0.0 / 0.0`), never an RMS of `0`, and
`process_window` publishes that value as voltage and as current. -/
theorem empty_window_rms_nan (tick : Nat) (v c : Nat → ℝ) (t : telemetry_t ℝ) :
    compute_rms Real.sqrt v 0 = Fp.nan ∧ compute_rms Real.sqrt v 0 ≠ Fp.fin 0 ∧
      (process_window Real.sqrt tick v c 0 t).voltage = Fp.nan ∧
      (process_window Real.sqrt tick v c 0 t).current = Fp.nan := by
  have h : ∀ x : Nat → ℝ, compute_rms Real.sqrt x 0 = Fp.nan := fun x => by
    simp [compute_rms, accumulate_eq, Fp.div, Fp.sqrt]
  refine ⟨h v, ?_, ?_, ?_⟩
  · rw [h v]
    exact fun hc => Fp.noConfusion hc
  · rw [process_window_fields]
    exact h v
  · rw [process_window_fields]
    exact h c

/-- In exact arithmetic, for every window of `n ≥ 1` samples whose apparent power
`s = vrms * irms` is greater than `0`, the published power factor is a number of
`[-1, 1]`: an excursion of the code beyond that interval comes from rounding. -/
theorem process_window_pf_bounded (tick : Nat) (v c : Nat → ℝ) (n : Nat)
    (t : telemetry_t ℝ) (hn : 1 ≤ n)
    (hs : Fp.gt (process_window_s Real.sqrt v c n) (Fp.fin 0) = true) :
    ∃ x : ℝ, (process_window Real.sqrt tick v c n t).pf = Fp.fin x ∧ -1 ≤ x ∧ x ≤ 1 := by
  rw [s_fin v c n hn] at hs
  simp only [Fp.gt, decide_eq_true_eq] at hs
  have hcs := abs_mean_mul_le v c n
  refine ⟨(∑ i in Finset.range n, v i * c i) / n
      / (Real.sqrt ((∑ i in Finset.range n, v i * v i) / n)
          * Real.sqrt ((∑ i in Finset.range n, c i * c i) / n)), ?_, ?_⟩
  · rw [process_window_fields]
    simp only [s_fin v c n hn, pavg_fin v c n hn, Fp.div, if_neg (ne_of_gt hs)]
  · rw [← abs_le, abs_div, abs_of_pos hs]
    exact (div_le_one hs).mpr hcs

theorem process_window_pf_bounded_witness :
    1 ≤ 1 ∧ Fp.gt (process_window_s Real.sqrt (fun _ => (1 : ℝ)) (fun _ => -1) 1)
        (Fp.fin 0) = true ∧
      ∃ x : ℝ, (process_window Real.sqrt 0 (fun _ => (1 : ℝ)) (fun _ => -1) 1
        telemetry_init).pf = Fp.fin x ∧ -1 ≤ x ∧ x ≤ 1 := by
  have hs : Fp.gt (process_window_s Real.sqrt (fun _ => (1 : ℝ)) (fun _ => -1) 1)
      (Fp.fin 0) = true := by
    norm_num [process_window_s, compute_rms, accumulate_eq, Fp.div, Fp.sqrt, Fp.mul, Fp.gt]
  exact ⟨le_refl 1, hs, process_window_pf_bounded 0 _ _ 1 telemetry_init (le_refl 1) hs⟩

/-- C6 fails on the code: with a voltage sample of `230` and a current sample of
`0` the apparent power is `0`, and the published power factor is the NaN of
`0.0 / 0.0`, not `0`. -/
theorem process_window_pf_zero_current :
    process_window_s Real.sqrt (fun _ => (230 : ℝ)) (fun _ => 0) 1 = Fp.fin 0 ∧
      (process_window Real.sqrt 0 (fun _ => (230 : ℝ)) (fun _ => 0) 1 telemetry_init).pf
        = Fp.nan ∧
      (process_window Real.sqrt 0 (fun _ => (230 : ℝ)) (fun _ => 0) 1 telemetry_init).pf
        ≠ Fp.fin 0 := by
  have hs : process_window_s Real.sqrt (fun _ => (230 : ℝ)) (fun _ => 0) 1 = Fp.fin 0 := by
    norm_num [process_window_s, compute_rms, accumulate_eq, Fp.div, Fp.sqrt, Fp.mul]
  have hp : process_window_pavg (fun _ => (230 : ℝ)) (fun _ => 0) 1 = Fp.fin 0 := by
    simp [process_window_pavg, accumulate_eq, Fp.div]
  have h : (process_window Real.sqrt 0 (fun _ => (230 : ℝ)) (fun _ => 0) 1
      telemetry_init).pf = Fp.nan := by
    rw [process_window_fields]
    simp [hs, hp, Fp.div]
  refine ⟨hs, h, ?_⟩
  rw [h]
  exact fun hc => Fp.noConfusion hc

/-- C7: for every window (of `n ≥ 1` samples, and of none as well) the published
reactive power is a number `≥ 0`. -/
theorem process_window_reactive_nonneg (tick : Nat) (v c : Nat → ℝ) (n : Nat)
    (t : telemetry_t ℝ) :
    ∃ x : ℝ, (process_window Real.sqrt tick v c n t).reactive_power = Fp.fin x ∧ 0 ≤ x := by
  rw [process_window_fields]
  rcases Nat.eq_zero_or_pos n with h0 | hpos
  · subst h0
    refine ⟨0, ?_, le_refl 0⟩
    simp [process_window_q, process_window_s, process_window_pavg, compute_rms,
      accumulate_eq, Fp.div, Fp.sqrt, Fp.mul, Fp.gt, Fp.fabs]
  · have hs0 : 0 ≤ Real.sqrt ((∑ i in Finset.range n, v i * v i) / n)
        * Real.sqrt ((∑ i in Finset.range n, c i * c i) / n) :=
      mul_nonneg (Real.sqrt_nonneg _) (Real.sqrt_nonneg _)
    refine ⟨reactive_power_clamped Real.sqrt
        (Real.sqrt ((∑ i in Finset.range n, v i * v i) / n)
          * Real.sqrt ((∑ i in Finset.range n, c i * c i) / n))
        ((∑ i in Finset.range n, v i * c i) / n), ?_, Real.sqrt_nonneg _⟩
    simp only [s_fin v c n hpos, pavg_fin v c n hpos]
    exact process_window_q_fin _ _ hs0

/-- C10, as stated, fails: two runs on the same window and tick, started from
prior states that differ in `frequency`, end in records that differ in
`frequency`. -/
theorem process_window_frequency_counterexample :
    (process_window Real.sqrt 0 (fun _ => (1 : ℝ)) (fun _ => 1) 1
        { telemetry_init with frequency := Fp.fin 50 }).frequency
      ≠ (process_window Real.sqrt 0 (fun _ => (1 : ℝ)) (fun _ => 1) 1
        { telemetry_init with frequency := Fp.fin 60 }).frequency := by
  rw [process_window_fields, process_window_fields]
  intro hc
  injection hc with hc
  norm_num at hc

/-- C10 (amended): for every window and tick value, two runs started from any
two prior telemetry states yield records equal in the fields voltage, current,
active_power, reactive_power, pf and timestamp; the field frequency is not
written and keeps the value of the prior state. -/
theorem process_window_overwrites (tick : Nat) (v c : Nat → ℝ) (n : Nat)
    (t₁ t₂ : telemetry_t ℝ) :
    (process_window Real.sqrt tick v c n t₁).voltage
        = (process_window Real.sqrt tick v c n t₂).voltage ∧
      (process_window Real.sqrt tick v c n t₁).current
        = (process_window Real.sqrt tick v c n t₂).current ∧
      (process_window Real.sqrt tick v c n t₁).active_power
        = (process_window Real.sqrt tick v c n t₂).active_power ∧
      (process_window Real.sqrt tick v c n t₁).reactive_power
        = (process_window Real.sqrt tick v c n t₂).reactive_power ∧
      (process_window Real.sqrt tick v c n t₁).pf
        = (process_window Real.sqrt tick v c n t₂).pf ∧
      (process_window Real.sqrt tick v c n t₁).timestamp
        = (process_window Real.sqrt tick v c n t₂).timestamp ∧
      (process_window Real.sqrt tick v c n t₁).frequency = t₁.frequency ∧
      (process_window Real.sqrt tick v c n t₂).frequency = t₂.frequency :=
  ⟨rfl, rfl, rfl, rfl, rfl, rfl, rfl, rfl⟩

/-! ## Scaling a window -/

/-- C13 (power triangle): for every window of `n ≥ 1` samples the published
active power `p` and reactive power `q` and the apparent power `s = vrms * irms`
satisfy `p^2 + q^2 = s^2`; `|p| ≤ s` always holds, so the branch `q = 0` (the test
`s > fabs(pavg)` false) is taken only when `|p| = s`. -/
theorem process_window_power_triangle (tick : Nat) (v c : Nat → ℝ) (n : Nat)
    (t : telemetry_t ℝ) (hn : 1 ≤ n) :
    ∃ s p q : ℝ, process_window_s Real.sqrt v c n = Fp.fin s ∧
      (process_window Real.sqrt tick v c n t).active_power = Fp.fin p ∧
      (process_window Real.sqrt tick v c n t).reactive_power = Fp.fin q ∧
      p ^ 2 + q ^ 2 = s ^ 2 ∧ |p| ≤ s ∧
      (Fp.gt (Fp.fin s) (Fp.fabs (Fp.fin p)) = false → |p| = s ∧ q = 0) := by
  have hcs := abs_mean_mul_le v c n
  have hs0 : 0 ≤ Real.sqrt ((∑ i in Finset.range n, v i * v i) / n)
      * Real.sqrt ((∑ i in Finset.range n, c i * c i) / n) :=
    mul_nonneg (Real.sqrt_nonneg _) (Real.sqrt_nonneg _)
  have hsq : ((∑ i in Finset.range n, v i * c i) / n) ^ 2
      ≤ (Real.sqrt ((∑ i in Finset.range n, v i * v i) / n)
          * Real.sqrt ((∑ i in Finset.range n, c i * c i) / n)) ^ 2 :=
    sq_le_sq' (by linarith [(abs_le.mp hcs).1]) (abs_le.mp hcs).2
  refine ⟨Real.sqrt ((∑ i in Finset.range n, v i * v i) / n)
        * Real.sqrt ((∑ i in Finset.range n, c i * c i) / n),
      (∑ i in Finset.range n, v i * c i) / n,
      reactive_power_clamped Real.sqrt
        (Real.sqrt ((∑ i in Finset.range n, v i * v i) / n)
          * Real.sqrt ((∑ i in Finset.range n, c i * c i) / n))
        ((∑ i in Finset.range n, v i * c i) / n),
      s_fin v c n hn, ?_, ?_, ?_, hcs, ?_⟩
  · rw [process_window_fields]
    exact pavg_fin v c n hn
  · rw [process_window_fields]
    simp only [s_fin v c n hn, pavg_fin v c n hn]
    exact process_window_q_fin _ _ hs0
  · unfold reactive_power_clamped
    rw [max_eq_left (by linarith), Real.sq_sqrt (by linarith)]
    ring
  · intro hgt
    simp only [Fp.gt, Fp.fabs, decide_eq_false_iff_not, not_lt] at hgt
    have heq := le_antisymm hcs hgt
    refine ⟨heq, ?_⟩
    unfold reactive_power_clamped
    rw [← sq_abs ((∑ i in Finset.range n, v i * c i) / n), heq, sub_self, max_self,
      Real.sqrt_zero]

theorem process_window_power_triangle_witness :
    1 ≤ 2 ∧ ∃ s p q : ℝ,
      process_window_s Real.sqrt (fun i => if i = 0 then (1 : ℝ) else 0)
        (fun i => if i = 0 then (0 : ℝ) else 1) 2 = Fp.fin s ∧
      (process_window Real.sqrt 0 (fun i => if i = 0 then (1 : ℝ) else 0)
        (fun i => if i = 0 then (0 : ℝ) else 1) 2 telemetry_init).active_power = Fp.fin p ∧
      (process_window Real.sqrt 0 (fun i => if i = 0 then (1 : ℝ) else 0)
        (fun i => if i = 0 then (0 : ℝ) else 1) 2 telemetry_init).reactive_power
        = Fp.fin q ∧
      p ^ 2 + q ^ 2 = s ^ 2 ∧ |p| ≤ s ∧
      (Fp.gt (Fp.fin s) (Fp.fabs (Fp.fin p)) = false → |p| = s ∧ q = 0) :=
  ⟨by decide, process_window_power_triangle 0 _ _ 2 telemetry_init (by decide)⟩

theorem step_consistent (ceiling : Nat) (m : BootManager) (e : BootEvent)
    (h : m.consistent) : (m.step ceiling e).consistent := by
  obtain ⟨st, rec, ver⟩ := m
  obtain ⟨ha, hl, hst⟩ := h
  cases e with
  | ota_finalized s =>
    cases st <;> simp only [BootManager.step] <;> try exact ⟨ha, hl, hst⟩
    split
    · exact ⟨ha, hl, hst⟩
    · rename_i hne
      simp only [not_or] at hne
      refine ⟨?_, ?_, hne.1, hne.2⟩
      · simp only [Function.update_noteq (Ne.symm hne.1)]
        exact ha
      · simp only [Function.update_noteq (Ne.symm hne.2)]
        exact hl
  | verification ok =>
    cases st <;> simp only [BootManager.step] <;> try exact ⟨ha, hl, hst⟩
    rename_i s
    cases ok
    · simp only [Bool.false_eq_true, if_false]
      refine ⟨?_, ?_, trivial⟩
      · simp only [Function.update_noteq (Ne.symm hst.1)]
        exact ha
      · simp only [Function.update_noteq (Ne.symm hst.2)]
        exact hl
    · simp only [if_true]
      refine ⟨by simp, ?_, rfl⟩
      by_cases hs : rec.last_known_good_slot_id = s
      · rw [hs]
        exact Function.update_same s true ver
      · simp only [Function.update_noteq hs]
        exact hl
  | self_test ok =>
    cases st <;> simp only [BootManager.step] <;> try exact ⟨ha, hl, hst⟩
    · cases ok
      · exact ⟨hl, hl, trivial⟩
      · exact ⟨ha, hl, hst⟩
    · rename_i n
      cases ok
      · simp only [Bool.false_eq_true, if_false]
        split
        · exact ⟨hl, hl, trivial⟩
        · exact ⟨ha, hl, hst⟩
      · simp only [if_true]
        have hn : n = rec.active_slot_id := hst
        exact ⟨ha, by simpa [hn] using ha, trivial⟩
  | reboot =>
    cases st <;> simp only [BootManager.step] <;> exact ⟨ha, hl, hst⟩

theorem run_consistent (ceiling : Nat) (events : List BootEvent) (m : BootManager)
    (h : m.consistent) : (m.run ceiling events).consistent := by
  induction events generalizing m with
  | nil => exact h
  | cons e rest ih => exact ih _ (step_consistent ceiling m e h)

theorem cold_start_consistent (ceiling : Nat) (record : BootRecord) (verified : Nat → Bool)
    (ha : verified record.active_slot_id = true)
    (hl : verified record.last_known_good_slot_id = true) :
    (BootManager.cold_start ceiling record verified).consistent := by
  unfold BootManager.cold_start
  split
  · exact ⟨hl, hl, trivial⟩
  · exact ⟨ha, hl, trivial⟩

/-- The active slot changes in a step only when a verification succeeded, to the
verified staging slot, or on a rollback, to the last known good slot. -/
theorem step_active_changes (ceiling : Nat) (m : BootManager) (e : BootEvent)
    (h : (m.step ceiling e).record.active_slot_id ≠ m.record.active_slot_id) :
    (m.state = BootState.PendingVerification (m.step ceiling e).record.active_slot_id
        ∧ e = BootEvent.verification true
        ∧ (m.step ceiling e).verified (m.step ceiling e).record.active_slot_id = true)
      ∨ (m.step ceiling e).record.active_slot_id = m.record.last_known_good_slot_id := by
  obtain ⟨st, rec, ver⟩ := m
  cases e with
  | ota_finalized s =>
    cases st <;> simp only [BootManager.step] at h ⊢ <;> try exact absurd rfl h
    split at h <;> exact absurd rfl h
  | verification ok =>
    cases st <;> simp only [BootManager.step] at h ⊢ <;> try exact absurd rfl h
    cases ok
    · exact absurd rfl h
    · left
      simp
  | self_test ok =>
    cases st <;> simp only [BootManager.step] at h ⊢ <;> try exact absurd rfl h
    · cases ok
      · right
        rfl
      · exact absurd rfl h
    · cases ok
      · simp only [Bool.false_eq_true, if_false] at h ⊢
        split
        · right
          rfl
        · rename_i hc
          simp only [hc, if_false] at h
          exact absurd rfl h
      · exact absurd rfl h
  | reboot =>
    cases st <;> simp only [BootManager.step] at h ⊢ <;> exact absurd rfl h

/-- A failed verification leaves the boot record as it is. -/
theorem step_verification_failed (ceiling : Nat) (m : BootManager) :
    (m.step ceiling (BootEvent.verification false)).record = m.record := by
  obtain ⟨st, rec, ver⟩ := m
  cases st <;> simp [BootManager.step]

/-- C11: `verify_and_prepare` never invokes decryption of a staged image whose
signature verification failed: a failed verification ends the run with
`SignatureInvalidError` after the single call `verify_signature`, and on every
run in which `decrypt` is called the signature was valid and the call follows
`verify_signature`. -/
theorem verify_and_prepare_decrypt_after_verify {Image : Type} (anchor : TrustAnchor Image)
    (staged : Image) :
    (anchor.signature_valid staged = false →
        (verify_and_prepare anchor staged []).2 = [AnchorCall.verify_signature] ∧
        (verify_and_prepare anchor staged []).1
          = Except.error VerificationError.SignatureInvalidError) ∧
      (AnchorCall.decrypt ∈ (verify_and_prepare anchor staged []).2 →
        anchor.signature_valid staged = true ∧
        (verify_and_prepare anchor staged []).2
          = [AnchorCall.verify_signature, AnchorCall.decrypt]) := by
  unfold verify_and_prepare TrustAnchor.verify_signature TrustAnchor.decrypt
  cases hsig : anchor.signature_valid staged
  · simp
  · cases hdec : anchor.decrypt_image staged <;> simp

/-- C12: started at cold start from a record whose active and last known good
slots hold verified images, in every reachable state of `BootDecisionManager`
the active slot holds an image that has passed `ImageVerifier`; a step changes
`active_slot_id` to a new slot only on a successful verification of that slot (or
back to the last known good slot on a rollback), and a failed verification
leaves the active slot unchanged. -/
theorem boot_active_slot_verified (ceiling : Nat) (record : BootRecord)
    (verified : Nat → Bool) (events : List BootEvent)
    (ha : verified record.active_slot_id = true)
    (hl : verified record.last_known_good_slot_id = true) :
    ((BootManager.cold_start ceiling record verified).run ceiling events).verified
        ((BootManager.cold_start ceiling record verified).run ceiling events).record.active_slot_id
        = true ∧
      (∀ e : BootEvent,
        (((BootManager.cold_start ceiling record verified).run ceiling events).step ceiling
            e).record.active_slot_id
          ≠ ((BootManager.cold_start ceiling record verified).run ceiling
            events).record.active_slot_id →
        (((BootManager.cold_start ceiling record verified).run ceiling events).state
            = BootState.PendingVerification
              (((BootManager.cold_start ceiling record verified).run ceiling events).step
                ceiling e).record.active_slot_id
          ∧ e = BootEvent.verification true)
        ∨ (((BootManager.cold_start ceiling record verified).run ceiling events).step ceiling
            e).record.active_slot_id
          = ((BootManager.cold_start ceiling record verified).run ceiling
            events).record.last_known_good_slot_id) ∧
      (((BootManager.cold_start ceiling record verified).run ceiling events).step ceiling
          (BootEvent.verification false)).record.active_slot_id
        = ((BootManager.cold_start ceiling record verified).run ceiling
          events).record.active_slot_id := by
  refine ⟨(run_consistent ceiling events _
    (cold_start_consistent ceiling record verified ha hl)).1, ?_, ?_⟩
  · intro e he
    rcases step_active_changes ceiling _ e he with h | h
    · exact Or.inl ⟨h.1, h.2.1⟩
    · exact Or.inr h
  · rw [step_verification_failed]

theorem boot_active_slot_verified_witness :
    (fun s : Nat => decide (s = 0)) (BootRecord.mk 0 0 0).active_slot_id = true ∧
      (fun s : Nat => decide (s = 0)) (BootRecord.mk 0 0 0).last_known_good_slot_id = true ∧
      ((BootManager.cold_start 3 (BootRecord.mk 0 0 0) (fun s => decide (s = 0))).run 3
          [BootEvent.ota_finalized 1, BootEvent.verification true,
            BootEvent.self_test true]).verified
        ((BootManager.cold_start 3 (BootRecord.mk 0 0 0) (fun s => decide (s = 0))).run 3
          [BootEvent.ota_finalized 1, BootEvent.verification true,
            BootEvent.self_test true]).record.active_slot_id = true :=
  ⟨rfl, rfl,
    (boot_active_slot_verified 3 (BootRecord.mk 0 0 0) (fun s => decide (s = 0))
      [BootEvent.ota_finalized 1, BootEvent.verification true, BootEvent.self_test true]
      rfl rfl).1⟩

/-! ## The code in IEEE-754 arithmetic: where rounding breaks the exact properties -/

/-- The rounding of the embedding on known values: `0.1` and `1/3` as `double`,
`0.1` as `float`, `sqrt 2` as `double`, the largest `float` and the overflow
threshold above it, and the underflow of `2^-150` and `3 * 2^-150` to the even
neighbour. -/
theorem IEEE.rounding_known_values :
    IEEE.to_double (Fp.fin (1 / 10)) = Fp.fin (3602879701896397 / 2 ^ 55) ∧
      IEEE.div (Fp.fin 1) (Fp.fin 3) = Fp.fin (6004799503160661 / 2 ^ 54) ∧
      IEEE.to_float (Fp.fin (1 / 10)) = Fp.fin (13421773 / 2 ^ 27) ∧
      IEEE.sqrt (Fp.fin 2) = Fp.fin (6369051672525773 / 2 ^ 52) ∧
      IEEE.to_float (Fp.fin (2 ^ 128 - 2 ^ 104)) = Fp.fin (2 ^ 128 - 2 ^ 104) ∧
      IEEE.to_float (Fp.fin (2 ^ 128 - 2 ^ 103)) = Fp.inf false ∧
      IEEE.to_float (Fp.fin (-(2 ^ 128))) = Fp.inf true ∧
      IEEE.to_float (Fp.fin (IEEE.pow2 (-150))) = Fp.fin 0 ∧
      IEEE.to_float (Fp.fin (3 * IEEE.pow2 (-150))) = Fp.fin (IEEE.pow2 (-148)) ∧
      IEEE.add (Fp.fin (2 ^ 53)) (Fp.fin 1) = Fp.fin (2 ^ 53) ∧
      IEEE.add (Fp.inf false) (Fp.inf true) = Fp.nan := by
  decide!

/-- C5 fails on the code: on the window `vbuf = ibuf = {7, 0, 0, 0, 0, 0, 0, 0, 0}`
(`n = 9`) the apparent power is positive and the published power factor is
`1 + 2^-23 > 1`, because `vrms` and `irms` are rounded to `float` before `s` is
formed. -/
theorem process_window_pf_exceeds_one :
    Fp.gt (IEEE.mul (IEEE.compute_rms (IEEE.pulse 7) 9) (IEEE.compute_rms (IEEE.pulse 7) 9))
        (Fp.fin 0) = true ∧
      (IEEE.process_window 0 (IEEE.pulse 7) (IEEE.pulse 7) 9 telemetry_init).pf
        = Fp.fin (8388609 / 8388608) ∧
      (1 : ℚ) < 8388609 / 8388608 := by
  decide!

end SmartEnergyNode
